import Mathlib

/-!
Shallow embedding of the `pkg/ocs` core of sodafoundation/contexture.

The embedding follows the Go source:
- `istio_connector.go`: `convertRangeToInstantResult`, `ExtractAdjacencyList`
- `mongodb.go`: `SaveAdjacencyList`, `GetLatestAdjacencyList`
- `handlers.go`: `parseTimestampParams`, `collectIstioMetricsHandler`,
  `getOCSPromptHandler`, `buildContextDefinitions`, `buildTopology`
- `types.go`: the shared data types

Go maps that carry meaning as finite mappings (`map[string][]string`,
`map[string]string`) are embedded as association lists; Go time values as
Unix seconds (Int); Go errors as `Except String`.
-/

namespace Contexture

/-- A Prometheus label set, Go `map[string]string`, as an association list. -/
abbrev LabelSet := List (String × String)

/-- Go `map[string][]string`, the source to destinations mapping, as an
association list. -/
abbrev AdjacencyList := List (String × List String)

/-- MetricConfig from `types.go`; `interface` valued fields are abstracted as
string pairs since the core never reads them. -/
structure MetricConfig where
  name : String
  type' : String
  unit : String
  description : String
  aggregationLogic : String
  healthConfig : List (String × String)
  deriving DecidableEq

/-- OCSConfig from `types.go`. -/
structure OCSConfig where
  policy : List String
  metrics : List MetricConfig
  workload : List String
  timeWindowMinutes : Option Int
  deriving DecidableEq

/-- One entry of an instant query result (`types.go`, PrometheusQueryResult.Data.Result);
the raw sample `value` is a (timestamp, sample) pair. -/
structure InstantEntry where
  metric : LabelSet
  value : Int × String
  deriving DecidableEq

/-- PrometheusQueryResult from `types.go` (ResultType is never consumed and is
left out of Data). -/
structure PrometheusQueryResult where
  status : String
  result : List InstantEntry
  deriving DecidableEq

/-- One entry of a range query result (`types.go`, PrometheusQueryRangeResult). -/
structure RangeEntry where
  metric : LabelSet
  values : List (Int × String)
  deriving DecidableEq

/-- PrometheusQueryRangeResult from `types.go`. -/
structure PrometheusQueryRangeResult where
  status : String
  result : List RangeEntry
  deriving DecidableEq

/-- Go map read `m["k"]` on a `map[string]string`: the value when the key is
present, the zero value (empty string) when absent. -/
def label (m : LabelSet) (k : String) : String := (m.lookup k).getD ""

/-- One `adjacencyList[source] = append(...)` update from `ExtractAdjacencyList`
(`istio_connector.go`, lines 171 to 186): ensure the source key exists and
append the destination unless it is already present. -/
def insertEdge : AdjacencyList → String → String → AdjacencyList
  | [], s, d => [(s, [d])]
  | (s', ds) :: rest, s, d =>
    if s' = s then (s', if d ∈ ds then ds else ds ++ [d]) :: rest
    else (s', ds) :: insertEdge rest s d

/-- The body of the loop of `ExtractAdjacencyList` for one result entry:
read the two workload labels and, when both are non-empty, record the edge. -/
def extractStep (adjacencyList : AdjacencyList) (r : InstantEntry) : AdjacencyList :=
  if label r.metric "source_workload" ≠ "" ∧ label r.metric "destination_workload" ≠ "" then
    insertEdge adjacencyList (label r.metric "source_workload")
      (label r.metric "destination_workload")
  else adjacencyList

/-- ExtractAdjacencyList from `istio_connector.go`, lines 163 to 192. -/
def ExtractAdjacencyList (result : PrometheusQueryResult) : AdjacencyList :=
  result.result.foldl extractStep []

lemma insertEdge_keys (adj : AdjacencyList) (s d : String) :
    (insertEdge adj s d).map Prod.fst =
      if s ∈ adj.map Prod.fst then adj.map Prod.fst else adj.map Prod.fst ++ [s] := by
  induction adj with
  | nil => simp [insertEdge]
  | cons p rest ih =>
    obtain ⟨s', ds⟩ := p
    by_cases h : s' = s
    · subst h
      simp [insertEdge]
    · simp only [insertEdge, if_neg h, List.map_cons]
      rw [ih]
      by_cases hm : s ∈ rest.map Prod.fst
      · simp [hm, h, Ne.symm h]
      · simp [hm, h, Ne.symm h]

lemma insertEdge_keys_nodup (adj : AdjacencyList) (s d : String)
    (h : (adj.map Prod.fst).Nodup) : ((insertEdge adj s d).map Prod.fst).Nodup := by
  rw [insertEdge_keys]
  by_cases hm : s ∈ adj.map Prod.fst
  · simpa [hm] using h
  · simp [hm, List.nodup_append, h]

lemma insertEdge_values (adj : AdjacencyList) (s d : String)
    (h : ∀ p ∈ adj, p.2.Nodup ∧ p.2 ≠ []) :
    ∀ p ∈ insertEdge adj s d, p.2.Nodup ∧ p.2 ≠ [] := by
  induction adj with
  | nil =>
    intro p hp
    have hp' : p = (s, [d]) := by simpa [insertEdge] using hp
    subst hp'
    exact ⟨List.nodup_singleton d, by simp⟩
  | cons q rest ih =>
    obtain ⟨s', ds⟩ := q
    have hds := h (s', ds) (List.mem_cons_self _ _)
    intro p hp
    by_cases hss : s' = s
    · have he : insertEdge ((s', ds) :: rest) s d
          = (s', if d ∈ ds then ds else ds ++ [d]) :: rest := by
        simp [insertEdge, hss]
      rw [he] at hp
      rcases List.mem_cons.mp hp with hp | hp
      · subst hp
        by_cases hd : d ∈ ds
        · simpa [hd] using hds
        · refine ⟨?_, by simp [hd]⟩
          simp [hd, List.nodup_append, hds.1]
      · exact h p (List.mem_cons_of_mem _ hp)
    · have he : insertEdge ((s', ds) :: rest) s d = (s', ds) :: insertEdge rest s d := by
        simp [insertEdge, hss]
      rw [he] at hp
      rcases List.mem_cons.mp hp with hp | hp
      · subst hp
        exact hds
      · exact ih (fun q hq => h q (List.mem_cons_of_mem _ hq)) p hp

lemma extractStep_inv (adj : AdjacencyList) (r : InstantEntry)
    (h : ((adj.map Prod.fst).Nodup ∧ ∀ p ∈ adj, p.2.Nodup ∧ p.2 ≠ [])) :
    ((extractStep adj r).map Prod.fst).Nodup ∧
      ∀ p ∈ extractStep adj r, p.2.Nodup ∧ p.2 ≠ [] := by
  unfold extractStep
  split
  · exact ⟨insertEdge_keys_nodup _ _ _ h.1, insertEdge_values _ _ _ h.2⟩
  · exact h

lemma foldl_extractStep_inv (l : List InstantEntry) :
    ∀ adj : AdjacencyList,
      ((adj.map Prod.fst).Nodup ∧ ∀ p ∈ adj, p.2.Nodup ∧ p.2 ≠ []) →
      (((l.foldl extractStep adj).map Prod.fst).Nodup ∧
        ∀ p ∈ l.foldl extractStep adj, p.2.Nodup ∧ p.2 ≠ []) := by
  induction l with
  | nil => intro adj h; simpa using h
  | cons r rest ih =>
    intro adj h
    simpa [List.foldl_cons] using ih (extractStep adj r) (extractStep_inv adj r h)

/-- Claim C4: for every input result set, `ExtractAdjacencyList` never yields a
source whose destination list contains a duplicate, and every source key
occurs at most once, so each (source, destination) pair appears as one edge. -/
theorem extractAdjacencyList_nodup (result : PrometheusQueryResult) :
    (∀ p ∈ ExtractAdjacencyList result, p.2.Nodup) ∧
      ((ExtractAdjacencyList result).map Prod.fst).Nodup := by
  have h := foldl_extractStep_inv result.result [] (by simp)
  exact ⟨fun p hp => (h.2 p hp).1, h.1⟩

/-- Claim C9: every source key present in the mapping returned by
`ExtractAdjacencyList` has a non-empty destination list, and the keys are
distinct, so counting the keys counts exactly the sources with an edge. -/
theorem extractAdjacencyList_values_nonempty (result : PrometheusQueryResult) :
    (∀ p ∈ ExtractAdjacencyList result, p.2 ≠ []) ∧
      ((ExtractAdjacencyList result).map Prod.fst).Nodup := by
  have h := foldl_extractStep_inv result.result [] (by simp)
  exact ⟨fun p hp => (h.2 p hp).2, h.1⟩

/-- Claim C7: a result entry missing the source workload label or the
destination workload label is silently dropped by `ExtractAdjacencyList`:
removing it from the input leaves the output unchanged, and no error exists. -/
theorem extractAdjacencyList_drops_unlabeled (pre post : List InstantEntry)
    (e : InstantEntry) (status : String)
    (h : e.metric.lookup "source_workload" = none ∨
         e.metric.lookup "destination_workload" = none) :
    ExtractAdjacencyList ⟨status, pre ++ e :: post⟩ =
      ExtractAdjacencyList ⟨status, pre ++ post⟩ := by
  have hstep : ∀ adj, extractStep adj e = adj := by
    intro adj
    rcases h with h | h <;> simp [extractStep, label, h]
  simp [ExtractAdjacencyList, List.foldl_append, List.foldl_cons, hstep]

/-- A result entry with no source workload label, used to instantiate the
dropped-entry theorem. -/
def entryNoSource : InstantEntry := ⟨[("destination_workload", "db")], (0, "1")⟩

/-- A fully labelled result entry, used to instantiate the dropped-entry
theorem. -/
def entryFull : InstantEntry :=
  ⟨[("source_workload", "app"), ("destination_workload", "db")], (0, "1")⟩

theorem extractAdjacencyList_drops_unlabeled_witness :
    (entryNoSource.metric.lookup "source_workload" = none ∨
      entryNoSource.metric.lookup "destination_workload" = none) ∧
    ExtractAdjacencyList ⟨"success", [entryFull] ++ entryNoSource :: []⟩ =
      ExtractAdjacencyList ⟨"success", [entryFull] ++ []⟩ :=
  ⟨Or.inl rfl,
    extractAdjacencyList_drops_unlabeled [entryFull] [] entryNoSource "success" (Or.inl rfl)⟩

/-- AdjacencyListDocument from `types.go`; the Mongo ObjectID is abstracted as
a Nat and the timestamp as Unix seconds. -/
structure AdjacencyListDocument where
  id : Nat
  adjacencyList : AdjacencyList
  timestamp : Int
  sourceCount : Nat
  totalConnections : Nat
  deriving DecidableEq

/-- SaveAdjacencyList from `mongodb.go`, lines 90 to 114: compute the counts,
build the document stamped with the current time, and insert it. Modelled
from the spec: the document store of spec section 6 is an append-only
collection, so insert-one is modelled as appending to a list of documents;
the fresh ObjectID is modelled as the insertion index. Returns the new store
and the inserted id. -/
def SaveAdjacencyList (adjacencyList : AdjacencyList) (now : Int)
    (store : List AdjacencyListDocument) : List AdjacencyListDocument × Nat :=
  let totalConnections := adjacencyList.foldl (fun acc p => acc + p.2.length) 0
  let doc : AdjacencyListDocument :=
    { id := store.length
      adjacencyList := adjacencyList
      timestamp := now
      sourceCount := adjacencyList.length
      totalConnections := totalConnections }
  (store ++ [doc], store.length)

/-- Modelled from the spec: the find-one-sorted-by-recency-descending query of
spec section 6, used by `GetLatestAdjacencyList` (`mongodb.go`, line 77).
Returns a document with the greatest timestamp; on equal timestamps the
earlier inserted document is kept, a deterministic tie break. -/
def findLatest : List AdjacencyListDocument → Option AdjacencyListDocument
  | [] => none
  | d :: rest =>
    match findLatest rest with
    | none => some d
    | some d' => if d'.timestamp > d.timestamp then some d' else some d

/-- GetLatestAdjacencyList from `mongodb.go`, lines 71 to 87: the latest
document when one exists, otherwise nil (no documents is not an error).
The nil Go map is modelled as `none`; reading it is reading the empty map. -/
def GetLatestAdjacencyList (store : List AdjacencyListDocument) :
    Except String (Option AdjacencyList) :=
  match findLatest store with
  | none => Except.ok none
  | some doc => Except.ok (some doc.adjacencyList)

lemma foldl_add_length (l : AdjacencyList) :
    ∀ n : Nat, l.foldl (fun acc p => acc + p.2.length) n = n + (l.map fun p => p.2.length).sum := by
  induction l with
  | nil => simp
  | cons p rest ih =>
    intro n
    simp only [List.foldl_cons, List.map_cons, List.sum_cons, ih]
    omega

/-- The persisted-snapshot counts property of the save operation. -/
def SaveCountsSpec (adjacencyList : AdjacencyList) (now : Int)
    (store : List AdjacencyListDocument) : Prop :=
  ∃ d, (SaveAdjacencyList adjacencyList now store).1 = store ++ [d]
    ∧ d.adjacencyList = adjacencyList
    ∧ d.timestamp = now
    ∧ d.totalConnections = (adjacencyList.map fun p => p.2.length).sum
    ∧ d.sourceCount = (adjacencyList.map Prod.fst).dedup.length

/-- Claim C2: the snapshot persisted by `SaveAdjacencyList` has
totalConnectionCount equal to the sum of the destination-list sizes over all
sources and sourceCount equal to the number of distinct sources in the
mapping (the input comes from a Go map, so its keys are distinct). -/
theorem saveAdjacencyList_counts (adjacencyList : AdjacencyList) (now : Int)
    (store : List AdjacencyListDocument)
    (hk : (adjacencyList.map Prod.fst).Nodup) :
    SaveCountsSpec adjacencyList now store := by
  refine ⟨_, rfl, rfl, rfl, ?_, ?_⟩
  · simpa using foldl_add_length adjacencyList 0
  · show adjacencyList.length = _
    rw [List.dedup_eq_self.mpr hk, List.length_map]

theorem saveAdjacencyList_counts_witness :
    ((([("app", ["db", "cache"]), ("proxy", ["app"])] : AdjacencyList).map Prod.fst).Nodup) ∧
      SaveCountsSpec [("app", ["db", "cache"]), ("proxy", ["app"])] 5 [] :=
  ⟨by decide, saveAdjacencyList_counts _ 5 [] (by decide)⟩

lemma findLatest_cons (a : AdjacencyListDocument) (rest : List AdjacencyListDocument) :
    findLatest (a :: rest) =
      match findLatest rest with
      | none => some a
      | some d' => if d'.timestamp > a.timestamp then some d' else some a := rfl

lemma findLatest_none (store : List AdjacencyListDocument)
    (h : findLatest store = none) : store = [] := by
  cases store with
  | nil => rfl
  | cons a rest =>
    exfalso
    rw [findLatest_cons] at h
    cases hrest : findLatest rest with
    | none =>
      rw [hrest] at h
      exact Option.noConfusion h
    | some b =>
      simp only [hrest] at h
      by_cases hbt : b.timestamp > a.timestamp
      · rw [if_pos hbt] at h
        exact Option.noConfusion h
      · rw [if_neg hbt] at h
        exact Option.noConfusion h

lemma findLatest_isMax (store : List AdjacencyListDocument) :
    ∀ d, findLatest store = some d → ∀ d' ∈ store, d'.timestamp ≤ d.timestamp := by
  induction store with
  | nil => simp [findLatest]
  | cons a rest ih =>
    intro d hd d' hd'
    rw [findLatest_cons] at hd
    cases hrest : findLatest rest with
    | none =>
      simp only [hrest, Option.some.injEq] at hd
      subst hd
      have hre : rest = [] := findLatest_none rest hrest
      subst hre
      have hda : d' = a := by simpa using hd'
      simp [hda]
    | some b =>
      simp only [hrest] at hd
      by_cases hbt : b.timestamp > a.timestamp
      · rw [if_pos hbt, Option.some.injEq] at hd
        subst hd
        rcases List.mem_cons.mp hd' with h1 | h1
        · rw [h1]
          omega
        · exact ih _ hrest d' h1
      · rw [if_neg hbt, Option.some.injEq] at hd
        subst hd
        rcases List.mem_cons.mp hd' with h1 | h1
        · simp [h1]
        · have hle := ih _ hrest d' h1
          omega


lemma findLatest_append_newest (l : List AdjacencyListDocument)
    (doc : AdjacencyListDocument) (h : ∀ d ∈ l, d.timestamp < doc.timestamp) :
    findLatest (l ++ [doc]) = some doc := by
  induction l with
  | nil => simp [findLatest]
  | cons a rest ih =>
    have hrest := ih fun d hd => h d (List.mem_cons_of_mem a hd)
    have ha := h a (List.mem_cons_self a rest)
    rw [List.cons_append, findLatest_cons, hrest]
    simp [ha]

lemma getLatest_save (adj : AdjacencyList) (t : Int)
    (store : List AdjacencyListDocument) (h : ∀ d ∈ store, d.timestamp < t) :
    GetLatestAdjacencyList (SaveAdjacencyList adj t store).1 = Except.ok (some adj) := by
  have hfl := findLatest_append_newest store
    { id := store.length
      adjacencyList := adj
      timestamp := t
      sourceCount := adj.length
      totalConnections := adj.foldl (fun acc p => acc + p.2.length) 0 } h
  simp only [SaveAdjacencyList, GetLatestAdjacencyList, hfl]

/-- The save-then-save-then-get-latest round trip property. -/
def SaveSaveLatestSpec (store : List AdjacencyListDocument)
    (A1 A2 : AdjacencyList) (t1 t2 : Int) : Prop :=
  GetLatestAdjacencyList (SaveAdjacencyList A2 t2 (SaveAdjacencyList A1 t1 store).1).1 =
    Except.ok (some A2)

/-- Claim C3: saving A1 and then saving A2 at a strictly later time makes
`GetLatestAdjacencyList` return the mapping of A2; in general the document
returned by the modelled find-one-sorted read has the greatest timestamp of
the store, and the choice among equal timestamps is a fixed deterministic
rule. -/
theorem getLatest_after_saves (store : List AdjacencyListDocument)
    (A1 A2 : AdjacencyList) (t1 t2 : Int)
    (hstore : ∀ d ∈ store, d.timestamp ≤ t1) (h12 : t1 < t2) :
    SaveSaveLatestSpec store A1 A2 t1 t2 ∧
      ∀ (s : List AdjacencyListDocument) d, findLatest s = some d →
        ∀ d' ∈ s, d'.timestamp ≤ d.timestamp := by
  constructor
  · have hall : ∀ d ∈ (SaveAdjacencyList A1 t1 store).1, d.timestamp < t2 := by
      intro d hd
      simp only [SaveAdjacencyList, List.mem_append, List.mem_singleton] at hd
      rcases hd with hd | hd
      · exact lt_of_le_of_lt (hstore d hd) h12
      · subst hd
        simpa using h12
    exact getLatest_save A2 t2 _ hall
  · exact fun s d hd d' hd' => findLatest_isMax s d hd d' hd'

theorem getLatest_after_saves_witness :
    (∀ d ∈ ([] : List AdjacencyListDocument), d.timestamp ≤ 1) ∧ ((1 : Int) < 2) ∧
      (SaveSaveLatestSpec [] [("a", ["b"])] [("c", ["d"])] 1 2 ∧
        ∀ (s : List AdjacencyListDocument) d, findLatest s = some d →
          ∀ d' ∈ s, d'.timestamp ≤ d.timestamp) :=
  ⟨by simp, by norm_num,
    getLatest_after_saves [] [("a", ["b"])] [("c", ["d"])] 1 2 (by simp) (by norm_num)⟩

/-- Topology from `buildTopology` in `handlers.go`: the optional dependencies
and dependents keys of the Go topology map. -/
structure Topology where
  dependencies : Option (List String)
  dependents : Option (List String)
  deriving DecidableEq

/-- OCSContextDefinition from `types.go`; the Go identity map holds the single
key workload, embedded as the workload string itself. A `none` topology is the
omitted (omitempty) field. -/
structure OCSContextDefinition where
  resourceID : String
  domain : String
  identityWorkload : String
  metrics : List MetricConfig
  topology : Option Topology
  policy : List String
  deriving DecidableEq

/-- OCSPromptResponse from `types.go`. -/
structure OCSPromptResponse where
  specVersion : String
  contextDefinitions : List OCSContextDefinition
  deriving DecidableEq

/-- One `workloadSet[w] = true` insertion of `buildContextDefinitions`; the Go
set is embedded as a duplicate-free list in first-insertion order, one
deterministic representative of the unordered Go map. -/
def insertWorkload (l : List String) (w : String) : List String :=
  if w ∈ l then l else l ++ [w]

/-- The workload set collected by `buildContextDefinitions` (`handlers.go`,
lines 229 to 242): all adjacency sources and destinations, then the
configured workloads. -/
def collectWorkloadSet (adjacencyList : AdjacencyList) (configWorkloads : List String) :
    List String :=
  configWorkloads.foldl insertWorkload
    (adjacencyList.foldl (fun acc p => p.2.foldl insertWorkload (insertWorkload acc p.1)) [])

/-- The reverse-dependency loop of `buildTopology` (`handlers.go`, lines 277
to 285): every source whose destination list mentions the workload, once per
mention. -/
def reverseDeps (adjacencyList : AdjacencyList) (workload : String) : List String :=
  adjacencyList.foldl
    (fun acc p => p.2.foldl (fun a d => if d = workload then a ++ [p.1] else a) acc) []

/-- buildTopology from `handlers.go`, lines 268 to 291: the dependencies key
when the adjacency entry exists and is non-empty, the dependents key when the
reverse-dependency list is non-empty. -/
def buildTopology (adjacencyList : AdjacencyList) (workload : String) : Topology :=
  { dependencies :=
      match adjacencyList.lookup workload with
      | some destinations => if destinations ≠ [] then some destinations else none
      | none => none
    dependents :=
      if reverseDeps adjacencyList workload ≠ [] then some (reverseDeps adjacencyList workload)
      else none }

/-- buildContextDefinitions from `handlers.go`, lines 225 to 266: one context
definition per collected workload; the topology field is set only when the
topology map is non-empty. -/
def buildContextDefinitions (adjacencyList : AdjacencyList) (config : OCSConfig) :
    List OCSContextDefinition :=
  (collectWorkloadSet adjacencyList config.workload).map fun workload =>
    { resourceID := "workload-" ++ workload
      domain := "compute.k8s"
      identityWorkload := workload
      metrics := config.metrics
      policy := config.policy
      topology :=
        if (buildTopology adjacencyList workload).dependencies = none ∧
            (buildTopology adjacencyList workload).dependents = none then none
        else some (buildTopology adjacencyList workload) }

/-- getOCSPromptHandler from `handlers.go`, lines 57 to 83: read the latest
adjacency list, replace a nil result by the empty map, assemble the context
definitions. -/
def getOCSPromptHandler (config : OCSConfig) (store : List AdjacencyListDocument) :
    Except String OCSPromptResponse :=
  match GetLatestAdjacencyList store with
  | Except.error e => Except.error e
  | Except.ok adjacencyListOpt =>
    Except.ok
      { specVersion := "0.1"
        contextDefinitions := buildContextDefinitions (adjacencyListOpt.getD []) config }

/-- Claim C6: on an empty store `GetLatestAdjacencyList` reports no error and
yields the nil result standing for the empty mapping, and the prompt handler
proceeds normally, assembling the context definitions over the empty mapping. -/
theorem getLatest_empty_store (config : OCSConfig) :
    GetLatestAdjacencyList [] = Except.ok none ∧
      getOCSPromptHandler config [] =
        Except.ok { specVersion := "0.1", contextDefinitions := buildContextDefinitions [] config } :=
  ⟨rfl, rfl⟩

lemma mem_insertWorkload {l : List String} {w x : String} :
    x ∈ insertWorkload l w ↔ x ∈ l ∨ x = w := by
  unfold insertWorkload
  by_cases h : w ∈ l
  · simp only [if_pos h]
    constructor
    · exact fun hx => Or.inl hx
    · rintro (hx | rfl)
      · exact hx
      · exact h
  · simp [if_neg h]

lemma nodup_insertWorkload {l : List String} {w : String} (h : l.Nodup) :
    (insertWorkload l w).Nodup := by
  unfold insertWorkload
  by_cases hw : w ∈ l
  · simpa [if_pos hw] using h
  · simp [if_neg hw, List.nodup_append, h, hw]

lemma mem_foldl_insertWorkload (ws : List String) :
    ∀ (acc : List String) (x : String),
      x ∈ ws.foldl insertWorkload acc ↔ x ∈ acc ∨ x ∈ ws := by
  induction ws with
  | nil => simp
  | cons w ws ih =>
    intro acc x
    rw [List.foldl_cons, ih, mem_insertWorkload]
    simp only [List.mem_cons]
    tauto

lemma nodup_foldl_insertWorkload (ws : List String) :
    ∀ acc : List String, acc.Nodup → (ws.foldl insertWorkload acc).Nodup := by
  induction ws with
  | nil => exact fun acc h => h
  | cons w ws ih => exact fun acc h => ih _ (nodup_insertWorkload h)

lemma mem_adjWorkloadFold (adjacencyList : AdjacencyList) :
    ∀ (acc : List String) (x : String),
      x ∈ adjacencyList.foldl
          (fun acc p => p.2.foldl insertWorkload (insertWorkload acc p.1)) acc ↔
        x ∈ acc ∨ ∃ p ∈ adjacencyList, x = p.1 ∨ x ∈ p.2 := by
  induction adjacencyList with
  | nil => simp
  | cons p rest ih =>
    intro acc x
    rw [List.foldl_cons, ih, mem_foldl_insertWorkload, mem_insertWorkload]
    simp only [List.mem_cons]
    aesop

lemma nodup_adjWorkloadFold (adjacencyList : AdjacencyList) :
    ∀ acc : List String, acc.Nodup →
      (adjacencyList.foldl
        (fun acc p => p.2.foldl insertWorkload (insertWorkload acc p.1)) acc).Nodup := by
  induction adjacencyList with
  | nil => exact fun acc h => h
  | cons p rest ih =>
    exact fun acc h =>
      ih _ (nodup_foldl_insertWorkload _ _ (nodup_insertWorkload h))

lemma mem_collectWorkloadSet (adjacencyList : AdjacencyList) (configWorkloads : List String)
    (x : String) :
    x ∈ collectWorkloadSet adjacencyList configWorkloads ↔
      x ∈ configWorkloads ∨ ∃ p ∈ adjacencyList, x = p.1 ∨ x ∈ p.2 := by
  unfold collectWorkloadSet
  rw [mem_foldl_insertWorkload, mem_adjWorkloadFold]
  simp only [List.not_mem_nil, false_or]
  aesop

lemma nodup_collectWorkloadSet (adjacencyList : AdjacencyList)
    (configWorkloads : List String) :
    (collectWorkloadSet adjacencyList configWorkloads).Nodup :=
  nodup_foldl_insertWorkload _ _ (nodup_adjWorkloadFold _ _ List.nodup_nil)

lemma mem_revInnerFold (destinations : List String) (src workload : String) :
    ∀ (acc : List String) (x : String),
      x ∈ destinations.foldl (fun a d => if d = workload then a ++ [src] else a) acc ↔
        x ∈ acc ∨ (x = src ∧ workload ∈ destinations) := by
  induction destinations with
  | nil => simp
  | cons d ds ih =>
    intro acc x
    rw [List.foldl_cons]
    by_cases hd : d = workload
    · rw [if_pos hd, ih]
      simp only [List.mem_append, List.mem_singleton, List.mem_cons]
      subst hd
      tauto
    · rw [if_neg hd, ih]
      simp only [List.mem_cons]
      constructor
      · rintro (hx | hx)
        · exact Or.inl hx
        · exact Or.inr ⟨hx.1, Or.inr hx.2⟩
      · rintro (hx | ⟨rfl, (rfl | hw)⟩)
        · exact Or.inl hx
        · exact absurd rfl hd
        · exact Or.inr ⟨rfl, hw⟩

lemma mem_reverseDeps (adjacencyList : AdjacencyList) (workload x : String) :
    x ∈ reverseDeps adjacencyList workload ↔
      ∃ p ∈ adjacencyList, x = p.1 ∧ workload ∈ p.2 := by
  unfold reverseDeps
  suffices h : ∀ acc : List String,
      x ∈ adjacencyList.foldl
          (fun acc p => p.2.foldl (fun a d => if d = workload then a ++ [p.1] else a) acc) acc ↔
        x ∈ acc ∨ ∃ p ∈ adjacencyList, x = p.1 ∧ workload ∈ p.2 by
    simpa using h []
  induction adjacencyList with
  | nil => simp
  | cons p rest ih =>
    intro acc
    rw [List.foldl_cons, ih, mem_revInnerFold]
    simp only [List.mem_cons]
    constructor
    · rintro ((hx | hx) | ⟨q, hq, hx⟩)
      · exact Or.inl hx
      · exact Or.inr ⟨p, Or.inl rfl, hx⟩
      · exact Or.inr ⟨q, Or.inr hq, hx⟩
    · rintro (hx | ⟨q, (rfl | hq), hx⟩)
      · exact Or.inl (Or.inl hx)
      · exact Or.inl (Or.inr hx)
      · exact Or.inr ⟨q, hq, hx⟩

/-- The dependencies field of a context definition as the consumer reads it:
absent when the topology field is omitted or the key is missing. -/
def topoDependencies (cd : OCSContextDefinition) : Option (List String) :=
  cd.topology.bind Topology.dependencies

/-- The dependents field of a context definition as the consumer reads it. -/
def topoDependents (cd : OCSContextDefinition) : Option (List String) :=
  cd.topology.bind Topology.dependents

lemma topoDependencies_mk (adjacencyList : AdjacencyList) (config : OCSConfig)
    (workload : String) :
    ∀ cd ∈ buildContextDefinitions adjacencyList config,
      cd.identityWorkload = workload →
      topoDependencies cd = (buildTopology adjacencyList workload).dependencies ∧
        topoDependents cd = (buildTopology adjacencyList workload).dependents := by
  intro cd hcd hw
  unfold buildContextDefinitions at hcd
  rcases List.mem_map.mp hcd with ⟨w, hwmem, hweq⟩
  have hww : w = workload := by
    rw [← hw, ← hweq]
  subst hww
  subst hweq
  unfold topoDependencies topoDependents
  by_cases hnone : (buildTopology adjacencyList w).dependencies = none ∧
      (buildTopology adjacencyList w).dependents = none
  · simp [if_pos hnone, hnone.1, hnone.2]
  · simp [if_neg hnone]

lemma buildTopology_dependencies_eq (adjacencyList : AdjacencyList) (w : String) :
    (buildTopology adjacencyList w).dependencies =
      match adjacencyList.lookup w with
      | some ds => if ds = [] then none else some ds
      | none => none := by
  unfold buildTopology
  dsimp only
  cases hlook : adjacencyList.lookup w with
  | none => rfl
  | some ds =>
    by_cases hds : ds = []
    · simp [hds]
    · simp [hds]

lemma buildTopology_dependents_eq (adjacencyList : AdjacencyList) (w : String) :
    (buildTopology adjacencyList w).dependents =
      if reverseDeps adjacencyList w = [] then none
      else some (reverseDeps adjacencyList w) := by
  unfold buildTopology
  dsimp only
  by_cases hrd : reverseDeps adjacencyList w = []
  · simp [hrd]
  · simp [hrd]

/-- The full correctness statement of the context assembler: one definition
per workload of the union, with the dependency and dependent fields as read
off the adjacency mapping. -/
def AssembleSpec (adjacencyList : AdjacencyList) (config : OCSConfig) : Prop :=
  ((buildContextDefinitions adjacencyList config).map
      OCSContextDefinition.identityWorkload).Nodup
  ∧ (∀ w, (∃ cd ∈ buildContextDefinitions adjacencyList config, cd.identityWorkload = w) ↔
      (w ∈ config.workload ∨ ∃ p ∈ adjacencyList, w = p.1 ∨ w ∈ p.2))
  ∧ ∀ cd ∈ buildContextDefinitions adjacencyList config,
      (topoDependencies cd =
        match adjacencyList.lookup cd.identityWorkload with
        | some ds => if ds = [] then none else some ds
        | none => none)
      ∧ (∀ s, (∃ l, topoDependents cd = some l ∧ s ∈ l) ↔
          ∃ p ∈ adjacencyList, s = p.1 ∧ cd.identityWorkload ∈ p.2)
      ∧ (topoDependents cd = none ↔ ∀ p ∈ adjacencyList, cd.identityWorkload ∉ p.2)

/-- Claim C1: `buildContextDefinitions` yields exactly one context definition
per workload in the union of the configured workload list and the workloads
appearing in the adjacency mapping; the dependencies field is the adjacency
entry when present and non-empty and absent otherwise, and the dependents
field holds exactly the sources whose destinations mention the workload and
is absent when there are none. -/
theorem buildContextDefinitions_correct (adjacencyList : AdjacencyList)
    (config : OCSConfig) : AssembleSpec adjacencyList config := by
  have hmap : (buildContextDefinitions adjacencyList config).map
      OCSContextDefinition.identityWorkload =
        collectWorkloadSet adjacencyList config.workload := by
    unfold buildContextDefinitions
    rw [List.map_map]
    show (collectWorkloadSet adjacencyList config.workload).map (fun w => w) =
      collectWorkloadSet adjacencyList config.workload
    simp
  refine ⟨?_, ?_, ?_⟩
  · rw [hmap]
    exact nodup_collectWorkloadSet _ _
  · intro w
    constructor
    · rintro ⟨cd, hcd, rfl⟩
      have hm : cd.identityWorkload ∈ (buildContextDefinitions adjacencyList config).map
          OCSContextDefinition.identityWorkload := List.mem_map_of_mem _ hcd
      rw [hmap, mem_collectWorkloadSet] at hm
      exact hm
    · intro hw
      have hw' : w ∈ collectWorkloadSet adjacencyList config.workload := by
        rw [mem_collectWorkloadSet]
        exact hw
      rw [← hmap] at hw'
      exact List.mem_map.mp hw'
  · intro cd hcd
    have hcd' := hcd
    unfold buildContextDefinitions at hcd'
    rcases List.mem_map.mp hcd' with ⟨w, hwmem, rfl⟩
    have hdd := topoDependencies_mk adjacencyList config w _ hcd rfl
    refine ⟨?_, ?_, ?_⟩
    · rw [hdd.1, buildTopology_dependencies_eq]
    · intro s
      rw [hdd.2, buildTopology_dependents_eq]
      by_cases hrd : reverseDeps adjacencyList w = []
      · rw [if_pos hrd]
        constructor
        · rintro ⟨l, hl, _⟩
          exact Option.noConfusion hl
        · rintro ⟨p, hp, rfl, hw2⟩
          exfalso
          have hmem : p.1 ∈ reverseDeps adjacencyList w :=
            (mem_reverseDeps _ _ _).mpr ⟨p, hp, rfl, hw2⟩
          rw [hrd] at hmem
          exact List.not_mem_nil _ hmem
      · rw [if_neg hrd]
        constructor
        · rintro ⟨l, hl, hs⟩
          rw [Option.some.injEq] at hl
          rw [← hl] at hs
          exact (mem_reverseDeps _ _ _).mp hs
        · intro hx
          exact ⟨reverseDeps adjacencyList w, rfl, (mem_reverseDeps _ _ _).mpr hx⟩
    · rw [hdd.2, buildTopology_dependents_eq]
      by_cases hrd : reverseDeps adjacencyList w = []
      · rw [if_pos hrd]
        constructor
        · intro _ p hp hw2
          have hmem : p.1 ∈ reverseDeps adjacencyList w :=
            (mem_reverseDeps _ _ _).mpr ⟨p, hp, rfl, hw2⟩
          rw [hrd] at hmem
          exact List.not_mem_nil _ hmem
        · intro _
          rfl
      · rw [if_neg hrd]
        constructor
        · intro h
          exact Option.noConfusion h
        · intro hall
          exfalso
          rcases List.exists_mem_of_ne_nil _ hrd with ⟨x, hx⟩
          rcases (mem_reverseDeps _ _ _).mp hx with ⟨p, hp, _, hw2⟩
          exact hall p hp hw2

/-- One label rendered as Go fmt renders a map entry with the %v verb: key,
colon, value. -/
def goFmtEntry (p : String × String) : String := p.1 ++ ":" ++ p.2

/-- Lexicographic order on character sequences, the order Go uses to compare
the string keys of a map being printed. -/
def charsLe : List Char → List Char → Bool
  | [], _ => true
  | _ :: _, [] => false
  | c :: cs, d :: ds =>
    if c.toNat < d.toNat then true
    else if d.toNat < c.toNat then false
    else charsLe cs ds

/-- Insertion into a list of labels sorted by key, as Go fmt sorts map keys
before printing. -/
def insertByKey (p : String × String) : LabelSet → LabelSet
  | [] => [p]
  | q :: rest => if charsLe p.1.data q.1.data then p :: q :: rest else q :: insertByKey p rest

/-- The label set in ascending key order, as Go fmt orders a map for
printing. -/
def sortByKey (m : LabelSet) : LabelSet := m.foldr insertByKey []

/-- The string `fmt.Sprintf` with the %v verb produces for a Go
`map[string]string`: the entries in sorted key order, space separated,
wrapped in a map marker. This is the key `convertRangeToInstantResult` uses
to deduplicate metric label combinations (`istio_connector.go`, line 135). -/
def goFmtMap (m : LabelSet) : String :=
  "map[" ++ String.intercalate " " ((sortByKey m).map goFmtEntry) ++ "]"

/-- The uniqueMetrics deduplication loop of `convertRangeToInstantResult`
(`istio_connector.go`, lines 127 to 145): keep the first entry of each fmt
key, in first-occurrence order, one deterministic representative of the
unordered Go map iteration of the output loop. -/
def uniqueMetricsFold : List RangeEntry → List String → List LabelSet
  | [], _ => []
  | r :: rs, seen =>
    if goFmtMap r.metric ∈ seen then uniqueMetricsFold rs seen
    else r.metric :: uniqueMetricsFold rs (goFmtMap r.metric :: seen)

/-- convertRangeToInstantResult from `istio_connector.go`, lines 120 to 160:
one synthesized entry per distinct fmt key, carrying the dummy value the code
writes in place of the discarded per-series samples. -/
def convertRangeToInstantResult (now : Int) (rangeResult : PrometheusQueryRangeResult) :
    PrometheusQueryResult :=
  { status := rangeResult.status
    result := (uniqueMetricsFold rangeResult.result []).map fun m =>
      { metric := m, value := (now, "1") } }

/-- Claim C5, evaluated at a failing input: two range series with distinct
label combinations (their key sets even differ) render to the same fmt key,
so the converted result holds a single synthesized entry where the claim
requires one entry per distinct label combination, that is two. -/
theorem convertRange_label_collision :
    (convertRangeToInstantResult 0
        { status := "success"
          result := [{ metric := [("a", "b"), ("c", "d")], values := [] },
                     { metric := [("a", "b c:d")], values := [] }] }).result.length = 1 ∧
      ([("a", "b"), ("c", "d")] : LabelSet) ≠ [("a", "b c:d")] ∧
      List.lookup "c" ([("a", "b"), ("c", "d")] : LabelSet) = some "d" ∧
      List.lookup "c" ([("a", "b c:d")] : LabelSet) = none ∧
      goFmtMap [("a", "b"), ("c", "d")] = goFmtMap [("a", "b c:d")] := by
  refine ⟨?_, by decide, by decide, by decide, ?_⟩
  · rfl
  · rfl

/-- parseTimestampParams from `handlers.go`, lines 163 to 206, abstracted over
the timestamp parser `parseTimestamp` (`handlers.go`, lines 209 to 222, an
RFC3339-or-Unix parse whose internals the validation logic never inspects);
times are Unix seconds. Empty query strings stand for absent parameters. -/
def parseTimestampParams (parseTimestamp : String → Option Int)
    (fromStr toStr : String) (timeWindowMinutes : Option Int) (now : Int) :
    Except String (Option Int × Option Int) :=
  if fromStr ≠ "" ∨ toStr ≠ "" then
    match
      (if fromStr ≠ "" then
        match parseTimestamp fromStr with
        | some t => Except.ok (some t)
        | none =>
          Except.error
            "invalid from_timestamp format. Use RFC3339 (e.g., 2024-01-01T00:00:00Z) or Unix timestamp"
      else Except.ok none : Except String (Option Int)) with
    | Except.error e => Except.error e
    | Except.ok fromTimestamp =>
      match
        (if toStr ≠ "" then
          match parseTimestamp toStr with
          | some t => Except.ok (some t)
          | none =>
            Except.error
              "invalid to_timestamp format. Use RFC3339 (e.g., 2024-01-01T00:00:00Z) or Unix timestamp"
        else Except.ok none : Except String (Option Int)) with
      | Except.error e => Except.error e
      | Except.ok toTimestamp =>
        match fromTimestamp, toTimestamp with
        | some f, some t =>
          if t < f then Except.error "from_timestamp must be before to_timestamp"
          else Except.ok (some f, some t)
        | some _, none =>
          Except.error "both from_timestamp and to_timestamp must be provided together, or neither"
        | none, some _ =>
          Except.error "both from_timestamp and to_timestamp must be provided together, or neither"
        | none, none => Except.ok (none, none)
  else
    match timeWindowMinutes with
    | some w => Except.ok (some (now - w * 60), some now)
    | none => Except.ok (none, none)

/-- How far `collectIstioMetricsHandler` (`handlers.go`, lines 86 to 149)
gets before its first outward call: either it answers bad request without
touching Prometheus or the store, or it reaches the Prometheus query with
the validated timestamps. -/
inductive CollectOutcome where
  | badRequest (message : String)
  | queryIssued (fromTimestamp toTimestamp : Option Int)
  deriving DecidableEq

/-- The pre-I/O part of collectIstioMetricsHandler from `handlers.go`, lines
86 to 113: reject an empty configured workload list, then parse and validate
the timestamps, and only then reach the backend query. -/
def collectIstioMetricsHandler (parseTimestamp : String → Option Int)
    (workloads : List String) (fromStr toStr : String)
    (timeWindowMinutes : Option Int) (now : Int) : CollectOutcome :=
  if workloads.length = 0 then
    CollectOutcome.badRequest "No source workloads configured in ocs_config.yaml"
  else
    match parseTimestampParams parseTimestamp fromStr toStr timeWindowMinutes now with
    | Except.error e => CollectOutcome.badRequest e
    | Except.ok (fromTimestamp, toTimestamp) =>
      CollectOutcome.queryIssued fromTimestamp toTimestamp

/-- An inverted time range is rejected by validation and the handler never
reaches the backend query. -/
def InvertedRangeSpec (parseTimestamp : String → Option Int) (workloads : List String)
    (fromStr toStr : String) (timeWindowMinutes : Option Int) (now : Int) : Prop :=
  parseTimestampParams parseTimestamp fromStr toStr timeWindowMinutes now =
      Except.error "from_timestamp must be before to_timestamp"
    ∧ ∀ f t, collectIstioMetricsHandler parseTimestamp workloads fromStr toStr
        timeWindowMinutes now ≠ CollectOutcome.queryIssued f t

/-- Claim C8: when both timestamps are supplied and parse to values with the
start strictly after the end, validation fails with an error and the
collection handler answers before the backend query is reached, so no
network or storage operation happens. -/
theorem inverted_range_rejected (parseTimestamp : String → Option Int)
    (workloads : List String) (fromStr toStr : String)
    (timeWindowMinutes : Option Int) (now f t : Int)
    (hf : fromStr ≠ "") (ht : toStr ≠ "")
    (hpf : parseTimestamp fromStr = some f) (hpt : parseTimestamp toStr = some t)
    (hlt : t < f) :
    InvertedRangeSpec parseTimestamp workloads fromStr toStr timeWindowMinutes now := by
  have hp : parseTimestampParams parseTimestamp fromStr toStr timeWindowMinutes now =
      Except.error "from_timestamp must be before to_timestamp" := by
    unfold parseTimestampParams
    rw [if_pos (Or.inl hf), if_pos hf, hpf, if_pos ht, hpt]
    simp [hlt]
  refine ⟨hp, fun f' t' => ?_⟩
  unfold collectIstioMetricsHandler
  rw [hp]
  by_cases hw : workloads.length = 0
  · simp [hw]
  · simp [hw]

/-- The parser used to instantiate the timestamp validation theorems: a fixed
finite table standing for parseTimestamp. -/
def sampleParse (s : String) : Option Int :=
  if s = "5" then some 5 else if s = "3" then some 3 else none

theorem inverted_range_rejected_witness :
    ("5" ≠ "" ∧ "3" ≠ "" ∧ sampleParse "5" = some 5 ∧ sampleParse "3" = some 3 ∧
        (3 : Int) < 5) ∧
      InvertedRangeSpec sampleParse ["app"] "5" "3" none 0 :=
  ⟨⟨by decide, by decide, by decide, by decide, by decide⟩,
    inverted_range_rejected sampleParse ["app"] "5" "3" none 0 5 3
      (by decide) (by decide) (by decide) (by decide) (by decide)⟩

/-- Supplying exactly one of the two timestamps is rejected by validation and
the handler never reaches the backend query. -/
def SingleTimestampSpec (parseTimestamp : String → Option Int) (workloads : List String)
    (fromStr toStr : String) (timeWindowMinutes : Option Int) (now : Int) : Prop :=
  (∃ msg, parseTimestampParams parseTimestamp fromStr toStr timeWindowMinutes now =
      Except.error msg)
    ∧ ∀ f t, collectIstioMetricsHandler parseTimestamp workloads fromStr toStr
        timeWindowMinutes now ≠ CollectOutcome.queryIssued f t

/-- Claim C10: a request supplying exactly one of the two timestamps fails
validation with an error (a format error when the supplied string does not
parse, the provide-both error otherwise) and the collection handler answers
before any backend query. -/
theorem single_timestamp_rejected (parseTimestamp : String → Option Int)
    (workloads : List String) (fromStr toStr : String)
    (timeWindowMinutes : Option Int) (now : Int)
    (h : (fromStr ≠ "" ∧ toStr = "") ∨ (fromStr = "" ∧ toStr ≠ "")) :
    SingleTimestampSpec parseTimestamp workloads fromStr toStr timeWindowMinutes now := by
  have hp : ∃ msg, parseTimestampParams parseTimestamp fromStr toStr timeWindowMinutes now =
      Except.error msg := by
    unfold parseTimestampParams
    rcases h with ⟨hf, ht⟩ | ⟨hf, ht⟩
    · rw [if_pos (Or.inl hf), if_pos hf]
      cases hpf : parseTimestamp fromStr with
      | none => exact ⟨_, rfl⟩
      | some f =>
        rw [if_neg (by simp [ht])]
        exact ⟨_, rfl⟩
    · rw [if_pos (Or.inr ht), if_neg (by simp [hf]), if_pos ht]
      cases hpt : parseTimestamp toStr with
      | none => exact ⟨_, rfl⟩
      | some t => exact ⟨_, rfl⟩
  rcases hp with ⟨msg, hp⟩
  refine ⟨⟨msg, hp⟩, fun f t => ?_⟩
  unfold collectIstioMetricsHandler
  rw [hp]
  by_cases hw : workloads.length = 0
  · simp [hw]
  · simp [hw]

theorem single_timestamp_rejected_witness :
    (("5" ≠ "" ∧ "" = "") ∨ ("5" = "" ∧ "" ≠ "")) ∧
      SingleTimestampSpec sampleParse ["app"] "5" "" none 0 :=
  ⟨Or.inl ⟨by decide, rfl⟩,
    single_timestamp_rejected sampleParse ["app"] "5" "" none 0 (Or.inl ⟨by decide, rfl⟩)⟩

end Contexture
